import Mathlib

/-!
# Verification of the xlr8 LSP engine against its specification

This file gives a shallow embedding, in Lean 4, of the LSP integration
engine of the xlr8 terminal editor (`LSPClient.ts`, `LSPManager.ts`,
`LSPConfigManager.ts`) and proves or refutes the specification claims
about it.

Conventions of the embedding:
* JS strings are modelled as `List Char` where index arithmetic matters
  (the framing decoder) and as `String` elsewhere.
* JS `Map` objects are modelled as association lists / lists of keys.
* Asynchronous methods returning promises are modelled as pure functions;
  a promise rejection is an `Except.error`, so a function of result type
  `Except ε α` that always returns `.ok` is one that never rejects.
* Callback invocations and outbound notifications are modelled as
  explicit event lists returned next to the new state.
-/

namespace Xlr8

/-! ## LSPConfigManager (ServerRegistry / ConfigResolver)

Embeds `LSPServerConfig`, `LSPConfig`, `getServerForFile` and
`getLanguageId` from `LSPConfigManager.ts`.  The `initializationOptions`
and `settings` fields (loosely typed `any` payloads that the resolver
never inspects) are omitted from the record.
-/

structure LSPServerConfig where
  name : String
  command : String
  args : List String
  fileExtensions : List String
  languageIds : List String
  enabled : Bool
deriving DecidableEq, Repr

structure LSPConfig where
  servers : List LSPServerConfig
  defaultServer : Option String
  autoDetect : Bool
deriving DecidableEq, Repr

/-- Node's `path.extname`, restricted to the rule it implements for
ordinary paths: the substring of the basename from its last `.` to the
end, unless that `.` is the basename's first character or there is no
`.` at all, in which case the result is empty. -/
def extname (p : List Char) : List Char :=
  let base := (p.reverse.takeWhile (fun c => c ≠ '/')).reverse
  let afterLastDot := base.reverse.takeWhile (fun c => c ≠ '.')
  if afterLastDot.length = base.length then []          -- no dot in basename
  else if afterLastDot.length + 1 = base.length then [] -- the only dot is the leading char
  else '.' :: afterLastDot.reverse

/-- `path.extname(filePath).toLowerCase()` as used by the resolver. -/
def extnameLower (filePath : String) : String :=
  String.mk ((extname filePath.toList).map Char.toLower)

/-- `LSPConfigManager.getServerForFile`: candidates are the enabled
servers whose `fileExtensions` list contains the file's lower-cased
extension; the configured default server wins when it is among the
candidates (the JS guard `if (this.config.defaultServer)` treats an
empty name as unconfigured), otherwise the first candidate wins;
`none` when there is no candidate. -/
def compatibleServersFor (cfg : LSPConfig) (filePath : String) : List LSPServerConfig :=
  let ext := extnameLower filePath
  cfg.servers.filter (fun s => s.enabled && s.fileExtensions.contains ext)

def getServerForFile (cfg : LSPConfig) (filePath : String) : Option LSPServerConfig :=
  match compatibleServersFor cfg filePath with
  | [] => none
  | c :: _ =>
    match cfg.defaultServer with
    | none => some c
    | some d =>
      if d = "" then some c
      else
        match (compatibleServersFor cfg filePath).find? (fun s => s.name == d) with
        | some ds => some ds
        | none => some c

/-- `LSPConfigManager.getLanguageId`: resolves a server first, returning
`"plaintext"` when none resolves; otherwise maps the extension through
the `switch` table, where `.h`/`.hpp` consult the resolved server's
`languageIds`. -/
def getLanguageId (cfg : LSPConfig) (filePath : String) : String :=
  match getServerForFile cfg filePath with
  | none => "plaintext"
  | some server =>
    let ext := extnameLower filePath
    if ext = ".ts" then "typescript"
    else if ext = ".tsx" then "typescriptreact"
    else if ext = ".js" then "javascript"
    else if ext = ".jsx" then "javascriptreact"
    else if ext = ".py" then "python"
    else if ext = ".rs" then "rust"
    else if ext = ".go" then "go"
    else if ext = ".c" then "c"
    else if ext = ".cpp" then "cpp"
    else if ext = ".cc" then "cpp"
    else if ext = ".cxx" then "cpp"
    else if ext = ".h" then (if server.languageIds.contains "cpp" then "cpp" else "c")
    else if ext = ".hpp" then (if server.languageIds.contains "cpp" then "cpp" else "c")
    else if ext = ".java" then "java"
    else if ext = ".json" then "json"
    else "plaintext"

/-- `LSPConfigManager.getBuiltInDefaults` (only the fields the resolver
reads). -/
def getBuiltInDefaults : LSPConfig :=
  { servers :=
      [ { name := "typescript-language-server", command := "typescript-language-server"
        , args := ["--stdio"]
        , fileExtensions := [".ts", ".tsx", ".js", ".jsx"]
        , languageIds := ["typescript", "typescriptreact", "javascript", "javascriptreact"]
        , enabled := true }
      , { name := "pyright", command := "pyright-langserver", args := ["--stdio"]
        , fileExtensions := [".py"], languageIds := ["python"], enabled := false }
      , { name := "rust-analyzer", command := "rust-analyzer", args := []
        , fileExtensions := [".rs"], languageIds := ["rust"], enabled := false }
      , { name := "gopls", command := "gopls", args := []
        , fileExtensions := [".go"], languageIds := ["go"], enabled := false }
      , { name := "clangd", command := "clangd", args := ["--background-index"]
        , fileExtensions := [".c", ".cpp", ".cc", ".cxx", ".h", ".hpp"]
        , languageIds := ["c", "cpp"], enabled := false }
      , { name := "java-language-server", command := "java"
        , args := ["-jar", "/path/to/java-language-server.jar"]
        , fileExtensions := [".java"], languageIds := ["java"], enabled := false } ]
  , defaultServer := some "typescript-language-server"
  , autoDetect := true }

/-! ## Framing / Decoder (`LSPClient.handleServerData`)

`handleServerData(data: Buffer)` receives a chunk of BYTES and runs
`this.messageBuffer += data.toString()`: each chunk is decoded from
UTF-8 to a JS string on its own — a chunk boundary falling inside a
multi-byte character produces U+FFFD replacement characters — and only
then appended to the string buffer, on which the `while (true)` loop
repeatedly scans for `\r\n\r\n`, matches the header against the regex
`/Content-Length: (\d+)/`, validates the declared length, and extracts
bodies by string positions (UTF-16 units, not bytes).

The embedding therefore has two layers.  Bytes are `Nat`s below 256 and
a chunk is a `List Nat`; `utf8Decode` models the per-chunk
`Buffer.toString('utf8')`.  The buffer is the decoded JS string,
modelled as `List Char` with one `Char` per UTF-16 code unit; for every
code point below `0x10000` (all ASCII and BMP text, which is all the
theorems below quantify over or evaluate) this is exactly the JS
representation, while an astral code point would occupy two JS units
but one `Char` — no statement in this file touches that case.

The string-level loop is embedded as: `scanStep` performs one iteration
of the `while` loop on the buffer (no recursion), and `processBuf`
iterates it.  `processBuf` uses a fuel argument equal to the buffer
length so that the definition is structurally recursive and reduces by
`decide`/`rfl`; a frame consumes at least 4 characters, so the fuel
never runs out (proved in `pbGo_congr`/the unfolding lemmas below).

The extracted bodies are emitted verbatim; the subsequent per-body
processing in the source (skipping whitespace-only bodies, `JSON.parse`
and `handleMessage`, with the brace-balancing recovery pass) consumes
the emitted sequence one body at a time and never touches
`messageBuffer`, so it is a pure function of this sequence; the
whitespace-only skip (`body.trim().length === 0`) is `decodedBodies`. -/

/-- The header terminator `\r\n\r\n`. -/
def sepL : List Char := ['\r', '\n', '\r', '\n']

/-- Index of the first occurrence of `\r\n\r\n` (JS `indexOf('\r\n\r\n')`). -/
def firstSep : List Char → Option Nat
  | [] => none
  | c :: cs =>
    if sepL.isPrefixOf (c :: cs) then some 0
    else (firstSep cs).map (· + 1)

/-- The literal `Content-Length: ` the header regex requires. -/
def clLit : List Char :=
  ['C','o','n','t','e','n','t','-','L','e','n','g','t','h',':',' ']

/-- Value of a decimal digit string (JS `parseInt(digits, 10)` for an
all-digit nonempty string). -/
def digitsVal (ds : List Char) : Nat :=
  ds.foldl (fun a c => a * 10 + (c.toNat - '0'.toNat)) 0

/-- One attempt of the regex `/Content-Length: (\d+)/` anchored at the
start of `s`: the literal prefix followed by a maximal nonempty digit
run. -/
def clMatchHere (s : List Char) : Option Nat :=
  if clLit.isPrefixOf s then
    let ds := (s.drop clLit.length).takeWhile Char.isDigit
    if ds.isEmpty then none else some (digitsVal ds)
  else none

/-- `header.match(/Content-Length: (\d+)/)`: first position where the
pattern matches, returning the captured length. -/
def clFind : List Char → Option Nat
  | [] => none
  | c :: cs =>
    match clMatchHere (c :: cs) with
    | some n => some n
    | none => clFind cs

/-- Result of one iteration of the decoder's `while` loop. -/
inductive StepRes where
  /-- `break` leaving the buffer as it is: no header terminator yet, or
  header found but fewer than `headerEnd + 4 + length` characters
  buffered. -/
  | stuck : StepRes
  /-- corruption: header regex mismatch or length outside
  `[0, 1000000]` — the code sets `messageBuffer = ''` and `break`s. -/
  | clear : StepRes
  /-- a full frame: its body and the remaining buffer. -/
  | frame (body rest : List Char) : StepRes
deriving DecidableEq, Repr

/-- One iteration of the `while (true)` loop of `handleServerData` on
the current buffer.  `length < 0` is impossible for the captured digit
string, so only the `> 1000000` bound remains. -/
def scanStep (buf : List Char) : StepRes :=
  match firstSep buf with
  | none => .stuck
  | some headerEnd =>
    match clFind (buf.take headerEnd) with
    | none => .clear
    | some length =>
      if length > 1000000 then .clear
      else if buf.length < headerEnd + 4 + length then .stuck
      else .frame ((buf.drop (headerEnd + 4)).take length)
                  (buf.drop (headerEnd + 4 + length))

/-- Fuel-indexed iteration of `scanStep`; the fuel only needs to bound
the number of loop iterations, and `processBuf` passes the buffer
length, which suffices because each extracted frame consumes at least 4
characters. -/
def pbGo : Nat → List Char → List Char × List (List Char)
  | 0, buf => (buf, [])
  | fuel + 1, buf =>
    match scanStep buf with
    | .stuck => (buf, [])
    | .clear => ([], [])
    | .frame body rest =>
      let p := pbGo fuel rest
      (p.1, body :: p.2)

/-- Run the decoder loop on a buffer: the final `messageBuffer` and the
extracted bodies in order. -/
def processBuf (buf : List Char) : List Char × List (List Char) :=
  pbGo buf.length buf

/-- Feed a sequence of already-decoded string pieces one at a time:
append the piece to the buffer, run the loop, collect the extracted
bodies in order.  This is the string-level core shared by every byte
chunking; `handleServerData` below composes it with the per-chunk
UTF-8 decode. -/
def feedStrs : List Char → List (List Char) → List Char × List (List Char)
  | buf, [] => (buf, [])
  | buf, c :: cs =>
    let p := processBuf (buf ++ c)
    let q := feedStrs p.1 cs
    (q.1, p.2 ++ q.2)

/-- The U+FFFD replacement character that `Buffer.toString('utf8')`
substitutes for invalid or truncated byte sequences. -/
def replChar : Char := '�'

/-- A UTF-8 continuation byte. -/
def isCont (b : Nat) : Bool := 0x80 ≤ b && b ≤ 0xBF

/-- Decode one UTF-8 sequence (or one maximal invalid/truncated
subpart, as a replacement character) from lead byte `b` followed by
`bs`: the decoded character and the bytes not yet consumed.  Follows
the WHATWG replacement policy Node's decoder implements: an invalid or
truncated sequence yields one U+FFFD for its maximal valid prefix and
decoding resumes at the first offending byte. -/
def utf8Step (b : Nat) (bs : List Nat) : Char × List Nat :=
  if b < 0x80 then (Char.ofNat b, bs)
  else if b < 0xC2 then (replChar, bs)
  else if b ≤ 0xDF then
    match bs with
    | [] => (replChar, [])
    | b1 :: bs1 =>
      if isCont b1 then (Char.ofNat ((b - 0xC0) * 0x40 + (b1 - 0x80)), bs1)
      else (replChar, b1 :: bs1)
  else if b ≤ 0xEF then
    match bs with
    | [] => (replChar, [])
    | b1 :: bs1 =>
      if (if b = 0xE0 then 0xA0 else 0x80) ≤ b1 &&
          b1 ≤ (if b = 0xED then 0x9F else 0xBF) then
        match bs1 with
        | [] => (replChar, [])
        | b2 :: bs2 =>
          if isCont b2 then
            (Char.ofNat ((b - 0xE0) * 0x1000 + (b1 - 0x80) * 0x40 + (b2 - 0x80)),
              bs2)
          else (replChar, b2 :: bs2)
      else (replChar, b1 :: bs1)
  else if b ≤ 0xF4 then
    match bs with
    | [] => (replChar, [])
    | b1 :: bs1 =>
      if (if b = 0xF0 then 0x90 else 0x80) ≤ b1 &&
          b1 ≤ (if b = 0xF4 then 0x8F else 0xBF) then
        match bs1 with
        | [] => (replChar, [])
        | b2 :: bs2 =>
          if isCont b2 then
            match bs2 with
            | [] => (replChar, [])
            | b3 :: bs3 =>
              if isCont b3 then
                (Char.ofNat ((b - 0xF0) * 0x40000 + (b1 - 0x80) * 0x1000 +
                    (b2 - 0x80) * 0x40 + (b3 - 0x80)), bs3)
              else (replChar, b3 :: bs3)
          else (replChar, b2 :: bs2)
      else (replChar, b1 :: bs1)
  else (replChar, bs)

/-- Fuel-indexed iteration of `utf8Step`; every step consumes at least
the lead byte, so fuel equal to the chunk length (what `utf8Decode`
passes) never runs out, and the definition is structurally recursive so
that concrete inputs reduce by `decide`. -/
def utf8Go : Nat → List Nat → List Char
  | _, [] => []
  | 0, _ :: _ => []
  | fuel + 1, b :: bs =>
    let p := utf8Step b bs
    p.1 :: utf8Go fuel p.2

/-- `Buffer.toString('utf8')` on one chunk: standard UTF-8 decoding
with U+FFFD replacement.  In particular a chunk that ends in the middle
of a multi-byte character yields a replacement character — the decoder
state is NOT carried over to the next chunk, because the source
converts each `data` buffer independently. -/
def utf8Decode (c : List Nat) : List Char :=
  utf8Go c.length c

/-- `LSPClient.handleServerData`: decode the inbound byte chunk to a
string (`data.toString()`), append it to `messageBuffer`, run the
loop. -/
def handleServerData (buf : List Char) (data : List Nat) :
    List Char × List (List Char) :=
  processBuf (buf ++ utf8Decode data)

/-- Feed a sequence of byte chunks one at a time, starting from buffer
`buf`, collecting all extracted bodies in order. -/
def feedChunks : List Char → List (List Nat) → List Char × List (List Char)
  | buf, [] => (buf, [])
  | buf, c :: cs =>
    let p := handleServerData buf c
    let q := feedChunks p.1 cs
    (q.1, p.2 ++ q.2)

/-- JS whitespace for `trim()` on the characters that can occur here. -/
def jsWs (c : Char) : Bool :=
  c = ' ' || c = '\t' || c = '\n' || c = '\r' || c = '\x0b' || c = '\x0c'

/-- The bodies a sequence of byte chunks actually hands to
`JSON.parse`/`handleMessage`: the extracted bodies minus the
whitespace-only ones that `body.trim().length === 0` skips. -/
def decodedBodies (cs : List (List Nat)) : List (List Char) :=
  ((feedChunks [] cs).2).filter (fun b => !(b.all jsWs))

/-- The UTF-8 bytes of an ASCII string (how `Buffer.from` would encode
the all-ASCII wire text used in concrete inputs below). -/
def asciiBytes (s : String) : List Nat :=
  s.toList.map Char.toNat

/-! ### Well-formed frames -/

/-- A Content-Length frame as a header digit string plus a body. -/
structure Frame where
  digits : List Char
  body : List Char
deriving DecidableEq, Repr

/-- Declared length of the frame. -/
def Frame.val (f : Frame) : Nat := digitsVal f.digits

/-- The frame's wire form `Content-Length: <digits>\r\n\r\n<body>`. -/
def Frame.encode (f : Frame) : List Char :=
  clLit ++ f.digits ++ sepL ++ f.body

/-- Well-formed frame at the string level: a nonempty digit string
declaring the body's exact length in characters, within the decoder's
`[0, 1000000]` bound.  On the wire `Content-Length` counts UTF-8
BYTES (spec §6), which coincides with the character count exactly for
ASCII bodies — the case the positive theorems below are stated for;
for a non-ASCII body the source compares that byte count against
UTF-16 `.length` and mis-frames, which is what the byte-level
counterexample to chunking invariance exhibits. -/
def Frame.wf (f : Frame) : Prop :=
  f.digits ≠ [] ∧ (∀ c ∈ f.digits, c.isDigit) ∧
    f.body.length = f.val ∧ f.val ≤ 1000000

instance (f : Frame) : Decidable f.wf := by
  unfold Frame.wf; infer_instance

/-- A well-formed frame stream: the concatenated wire forms. -/
def frameStream (F : List Frame) : List Char :=
  (F.map Frame.encode).flatten

/-! ## LSPClient protocol state

Embeds the id-allocation / pending-request / dispatch state of
`LSPClient`: the fields `nextId`, `messageHandlers` (a `Map` from id to
callback, modelled as the list of pending ids — the callback attached to
id `i` is identified by `i` itself), and `isInitialized`.  `initId`
records which pending id belongs to the `initialize` handshake, whose
resolution is what sets `isInitialized` in `start`.  Callback
invocations are emitted as events: `invoke i isErr` is the source
calling the stored handler for id `i` with a response (carrying an
`error` member when `isErr`), which resolves or rejects the caller's
promise. -/

inductive CEvent where
  | alloc (id : Nat)
  | invoke (id : Nat) (isErr : Bool)
  | notifDispatch (method : String)
  | unhandledMsg
deriving DecidableEq, Repr

structure CState where
  nextId : Nat
  messageHandlers : List Nat
  isInitialized : Bool
  initId : Option Nat
deriving DecidableEq, Repr

/-- A fresh `LSPClient`: `nextId = 1`, empty pending table, not
initialized. -/
def initialClient : CState :=
  { nextId := 1, messageHandlers := [], isInitialized := false, initId := none }

/-- An inbound JSON-RPC message as `handleMessage` inspects it: optional
`id`, optional `method`, and whether it carries an `error` member. -/
structure InMsg where
  id : Option Nat
  method : Option String
  isErr : Bool
deriving DecidableEq, Repr

/-- The only registered notification handler
(`setupNotificationHandlers`). -/
def notificationHandled (m : String) : Bool :=
  m == "textDocument/publishDiagnostics"

/-- The notification/unhandled branch of `handleMessage`. -/
def dispatchMethod (s : CState) (m : InMsg) : CState × List CEvent :=
  match m.method with
  | some meth =>
    if notificationHandled meth then (s, [.notifDispatch meth])
    else (s, [.unhandledMsg])
  | none => (s, [.unhandledMsg])

/-- `LSPClient.handleMessage`: a message whose id is in the pending
table deletes the entry first and then calls its handler exactly once;
otherwise the method dispatch runs.  Resolving the handshake response
(id = `initId`, no error) is what flips `isInitialized` to true in
`start`. -/
def handleMessage (s : CState) (m : InMsg) : CState × List CEvent :=
  match m.id with
  | some i =>
    if s.messageHandlers.contains i then
      let s1 := { s with messageHandlers := s.messageHandlers.erase i }
      let s2 := if s.initId == some i && !m.isErr then
          { s1 with isInitialized := true } else s1
      (s2, [.invoke i m.isErr])
    else dispatchMethod s m
  | none => dispatchMethod s m

/-- Fresh id allocation and pending-entry registration, the common part
of `initialize`, `requestCompletion` and `requestDefinition`:
`const id = this.nextId++; this.messageHandlers.set(id, ...)`. -/
def allocId (s : CState) : CState × Nat :=
  ({ s with
      nextId := s.nextId + 1
    , messageHandlers := s.nextId :: s.messageHandlers }, s.nextId)

/-- The operations that touch the protocol state during a session. -/
inductive COp where
  /-- the `initialize()` request sent by `start` -/
  | startInit
  /-- `requestCompletion` (allocates only when initialized; otherwise
  the returned promise is rejected immediately and no id is used) -/
  | reqCompletion
  /-- `requestDefinition`, same guard -/
  | reqDefinition
  /-- a decoded inbound message reaching `handleMessage` -/
  | inbound (m : InMsg)
  /-- `stop()`: kill the process, `isInitialized = false`,
  `messageHandlers.clear()` -/
  | stopClient
deriving DecidableEq, Repr

def stepClient (s : CState) : COp → CState × List CEvent
  | .startInit =>
    let p := allocId s
    ({ p.1 with initId := some p.2 }, [.alloc p.2])
  | .reqCompletion =>
    if s.isInitialized then
      let p := allocId s
      (p.1, [.alloc p.2])
    else (s, [])
  | .reqDefinition =>
    if s.isInitialized then
      let p := allocId s
      (p.1, [.alloc p.2])
    else (s, [])
  | .inbound m => handleMessage s m
  | .stopClient =>
    ({ s with isInitialized := false, messageHandlers := [] }, [])

/-- Run a sequence of operations from a client state, collecting events
in order. -/
def runClient : CState → List COp → CState × List CEvent
  | s, [] => (s, [])
  | s, op :: ops =>
    let p := stepClient s op
    let q := runClient p.1 ops
    (q.1, p.2 ++ q.2)

/-- The request ids allocated along an event trace, in order. -/
def allocIds (evs : List CEvent) : List Nat :=
  evs.filterMap (fun e => match e with | .alloc i => some i | _ => none)

/-- How many times the pending handler of id `i` was invoked in a
trace. -/
def invokeCount (evs : List CEvent) (i : Nat) : Nat :=
  (evs.filter (fun e => match e with | .invoke j _ => j == i | _ => false)).length

/-- `LSPClient.start` with its handshake outcome: allocates the
`initialize` id; on success the response resolves that entry (setting
`isInitialized`), on failure (spawn error or handshake rejection) the
returned promise rejects and the flag stays false. -/
def startClient (s : CState) (ok : Bool) : CState :=
  let p := stepClient s .startInit
  if ok then (stepClient p.1 (.inbound ⟨some s.nextId, none, false⟩)).1
  else p.1

/-! ## LSPManager (SessionManager)

Embeds the session façade: diagnostics cache, single `currentUri`,
`isEnabled` flag, the owned client, and the config manager's state.
Outbound document-lifecycle notifications are emitted as `Notif`
events.  Paths are taken as already absolute (`path.resolve` is the
identity on them), so `getFileUri` is `"file://" ++ path`. -/

inductive Notif where
  | didOpen (uri languageId : String) (version : Nat) (text : String)
  | didChange (uri : String) (version : Nat) (text : String)
  | didSave (uri text : String)
  | didClose (uri : String)
deriving DecidableEq, Repr

structure LSPPosition where
  line : Nat
  character : Nat
deriving DecidableEq, Repr

/-- An LSP range; `endPos` embeds the source field `end` (a reserved
word in Lean). -/
structure LSPRange where
  start : LSPPosition
  endPos : LSPPosition
deriving DecidableEq, Repr

structure LSPDiagnostic where
  range : LSPRange
  severity : Nat
  message : String
  source : Option String
deriving DecidableEq, Repr

/-- Editor-space coordinates (`BufferManager.Position`). -/
structure Position where
  row : Nat
  col : Nat
deriving DecidableEq, Repr

structure LSPTextEdit where
  range : LSPRange
  newText : String
deriving DecidableEq, Repr

structure LSPCompletionItem where
  label : String
  kind : Nat
  sortText : String
  textEdit : Option LSPTextEdit
deriving DecidableEq, Repr

structure LSPCompletionResponse where
  items : List LSPCompletionItem
  isIncomplete : Bool
deriving DecidableEq, Repr

structure LSPLocation where
  uri : String
  range : LSPRange
deriving DecidableEq, Repr

structure LSPDefinitionResponse where
  locations : Option (List LSPLocation)
  location : Option LSPLocation
deriving DecidableEq, Repr

/-- An editor-space range; `endPos` embeds the source field `end`. -/
structure EditorRange where
  start : Position
  endPos : Position
deriving DecidableEq, Repr

structure CompletionSuggestion where
  label : String
  kind : String
  insertText : String
  range : EditorRange
deriving DecidableEq, Repr

structure DefinitionLocation where
  filePath : String
  position : Position
deriving DecidableEq, Repr

structure MState where
  client : CState
  currentUri : Option String
  diagnostics : List (String × List LSPDiagnostic)
  isEnabled : Bool
  config : LSPConfig
  currentServerConfig : Option LSPServerConfig
deriving DecidableEq, Repr

/-- A fresh `LSPManager` over a loaded configuration. -/
def initialManager (cfg : LSPConfig) : MState :=
  { client := initialClient, currentUri := none, diagnostics := []
  , isEnabled := false, config := cfg, currentServerConfig := none }

/-- `LSPManager.isReady`. -/
def isReadyM (m : MState) : Bool :=
  m.isEnabled && m.client.isInitialized

/-- `LSPManager.getFileUri` (paths taken as absolute). -/
def getFileUri (filePath : String) : String :=
  "file://" ++ filePath

/-- `LSPManager.initialize`: resolve a server for the file when one is
given (no resolution → plain early return with `isEnabled = false`),
replace the client, start it; the whole body is inside `try`/`catch`, so
a start failure only logs and sets `isEnabled = false`.  `startOk` is
the outcome of `client.start` (spawn plus handshake). -/
def initializeM (m : MState) (filePath : Option String) (startOk : Bool) : MState :=
  match filePath with
  | some fp =>
    match getServerForFile m.config fp with
    | none => { m with isEnabled := false }
    | some sc =>
      let m1 := { m with
          currentServerConfig := some sc
        , client := startClient initialClient startOk }
      if startOk then { m1 with isEnabled := true }
      else { m1 with isEnabled := false }
  | none =>
    let m1 := { m with client := startClient m.client startOk }
    if startOk then { m1 with isEnabled := true }
    else { m1 with isEnabled := false }

/-- The fallible part of `LSPManager.initialize` before the `catch`
clause: `await this.client.start(...)` rejects on spawn failure or a
rejected handshake; the error payload carries the state as already
mutated when the exception aborts the method.  The missing-server case
is an ordinary early return, not an exception. -/
def initializeTry (m : MState) (filePath : Option String) (startOk : Bool) :
    Except (String × MState) MState :=
  match filePath with
  | some fp =>
    match getServerForFile m.config fp with
    | none => .ok { m with isEnabled := false }
    | some sc =>
      let m1 := { m with
          currentServerConfig := some sc
        , client := startClient initialClient startOk }
      if startOk then .ok { m1 with isEnabled := true }
      else .error ("Failed to initialize LSP", m1)
  | none =>
    let m1 := { m with client := startClient m.client startOk }
    if startOk then .ok { m1 with isEnabled := true }
    else .error ("Failed to initialize LSP", m1)

/-- `LSPManager.openDocument`: no-op unless ready; stores the new uri
and sends `didOpen` with version 1 (the `notifyDidOpen` guard re-checks
`isInitialized`). -/
def openDocument (m : MState) (filePath content : String) : MState × List Notif :=
  if isReadyM m then
    let uri := getFileUri filePath
    let m1 := { m with currentUri := some uri }
    if m1.client.isInitialized then
      (m1, [.didOpen uri (getLanguageId m.config filePath) 1 content])
    else (m1, [])
  else (m, [])

/-- `LSPManager.updateDocument`: no-op unless ready and a document is
open; sends `didChange` with the complete current text and the literal
version `1`. -/
def updateDocument (m : MState) (filePath content : String) : MState × List Notif :=
  if isReadyM m then
    match m.currentUri with
    | some uri =>
      if m.client.isInitialized then (m, [.didChange uri 1 content])
      else (m, [])
    | none => (m, [])
  else (m, [])

/-- `LSPManager.closeDocument`. -/
def closeDocument (m : MState) : MState × List Notif :=
  if isReadyM m then
    match m.currentUri with
    | some uri =>
      if m.client.isInitialized then
        ({ m with currentUri := none }, [.didClose uri])
      else ({ m with currentUri := none }, [])
    | none => (m, [])
  else (m, [])

/-- `LSPManager.stop`: `client.stop()` (which clears the pending table
without calling any stored handler), `isEnabled = false`, drop the
current uri, clear the diagnostics cache. -/
def stopM (m : MState) : MState × List CEvent :=
  let p := stepClient m.client .stopClient
  ({ m with
      client := p.1
    , isEnabled := false
    , currentUri := none
    , diagnostics := [] }, p.2)

/-- `LSPManager.switchServer`: throws when the name is not among the
enabled servers; otherwise stops the current session (when enabled) and
starts a fresh client; a start failure propagates.  The returned events
are those produced by the teardown. -/
def switchServer (m : MState) (serverName : String) (startOk : Bool) :
    Except String (MState × List CEvent) :=
  match (m.config.servers.filter (fun s => s.enabled)).find?
      (fun s => s.name == serverName) with
  | none => .error ("Server not found or not enabled")
  | some sc =>
    let p := if m.isEnabled then stopM m else (m, [])
    let m1 := { p.1 with
          currentServerConfig := some sc
        , client := startClient initialClient startOk }
    if startOk then .ok ({ m1 with isEnabled := true }, p.2)
    else .error "Failed to start LSP server"

/-- `LSPClient.getCompletionKind`. -/
def getCompletionKind : Nat → String
  | 1 => "text"
  | 2 => "method"
  | 3 => "function"
  | 4 => "constructor"
  | 5 => "field"
  | 6 => "variable"
  | 7 => "class"
  | 8 => "interface"
  | 9 => "module"
  | 10 => "property"
  | 11 => "unit"
  | 12 => "value"
  | 13 => "enum"
  | 14 => "keyword"
  | 15 => "snippet"
  | 16 => "color"
  | 17 => "file"
  | 18 => "reference"
  | 19 => "folder"
  | 20 => "enumMember"
  | 21 => "constant"
  | 22 => "struct"
  | 23 => "event"
  | 24 => "operator"
  | 25 => "typeParameter"
  | _ => "text"

/-- `LSPManager.convertCompletions`, including the row-correction and
the JS falsy fallback `item.textEdit?.newText || item.label`. -/
def convertCompletions (response : LSPCompletionResponse) (position : Position) :
    List CompletionSuggestion :=
  response.items.map (fun item =>
    let range : EditorRange :=
      match item.textEdit with
      | some te =>
        { start := ⟨te.range.start.line, te.range.start.character⟩
        , endPos := ⟨te.range.endPos.line, te.range.endPos.character⟩ }
      | none => { start := position, endPos := position }
    let insertText :=
      match item.textEdit with
      | some te => if te.newText = "" then item.label else te.newText
      | none => item.label
    let completion : CompletionSuggestion :=
      { label := item.label, kind := getCompletionKind item.kind
      , insertText := insertText, range := range }
    if completion.range.start.row ≠ position.row then
      { completion with range :=
          { start := { completion.range.start with row := position.row }
          , endPos := { completion.range.endPos with row := position.row } } }
    else completion)

/-- `LSPManager.getFilePathFromUri`. -/
def getFilePathFromUri (uri : String) : String :=
  if uri.startsWith "file://" then uri.drop 7 else uri

/-- `LSPManager.convertLSPLocation`. -/
def convertLSPLocation (location : LSPLocation) : DefinitionLocation :=
  { filePath := getFilePathFromUri location.uri
  , position := { row := location.range.start.line
                , col := location.range.start.character } }

/-- `LSPManager.convertDefinitionResponse`: the single `location` first,
then the `locations` array. -/
def convertDefinitionResponse (response : LSPDefinitionResponse) :
    List DefinitionLocation :=
  (match response.location with
    | some l => [convertLSPLocation l]
    | none => []) ++
  (match response.locations with
    | some ls => ls.map convertLSPLocation
    | none => [])

/-- `LSPManager.getCompletions`: `[]` when not ready or no open
document; otherwise the awaited request's outcome is converted, with
any rejection caught and turned into `[]`.  The `Except` result type
records that the promise returned to the editor never rejects. -/
def getCompletions (m : MState) (position : Position)
    (outcome : Except String LSPCompletionResponse) :
    Except String (List CompletionSuggestion) :=
  if isReadyM m then
    match m.currentUri with
    | some _ =>
      match outcome with
      | .error _ => .ok []
      | .ok response => .ok (convertCompletions response position)
    | none => .ok []
  else .ok []

/-- `LSPManager.getDefinition`, same shape as `getCompletions`. -/
def getDefinition (m : MState) (position : Position)
    (outcome : Except String LSPDefinitionResponse) :
    Except String (List DefinitionLocation) :=
  if isReadyM m then
    match m.currentUri with
    | some _ =>
      match outcome with
      | .error _ => .ok []
      | .ok response => .ok (convertDefinitionResponse response)
    | none => .ok []
  else .ok []

/-- Pending-table / id-allocation invariant of a client state. -/
def ClientInv (s : CState) : Prop :=
  s.messageHandlers.Nodup ∧ ∀ i ∈ s.messageHandlers, i < s.nextId

instance (s : CState) : Decidable (ClientInv s) := by
  unfold ClientInv; infer_instance

/-! ### Decoder infrastructure lemmas -/

theorem scanStep_nil : scanStep [] = .stuck := rfl

theorem scanStep_frame_length {buf body rest : List Char}
    (h : scanStep buf = .frame body rest) : rest.length + 4 ≤ buf.length := by
  unfold scanStep at h
  split at h
  · exact absurd h (by simp)
  split at h
  · exact absurd h (by simp)
  split at h
  · exact absurd h (by simp)
  split at h
  · exact absurd h (by simp)
  obtain ⟨_, hr⟩ := StepRes.frame.inj h
  subst hr
  simp only [List.length_drop]
  omega

theorem scanStep_ne_stuck_length {buf : List Char} (h : scanStep buf ≠ .stuck) :
    ∃ m, buf.length = m + 1 := by
  cases buf with
  | nil => exact absurd scanStep_nil h
  | cons c cs => exact ⟨cs.length, by simp⟩

theorem pbGo_congr : ∀ (f1 : Nat) (buf : List Char) (f2 : Nat),
    buf.length ≤ f1 → buf.length ≤ f2 → pbGo f1 buf = pbGo f2 buf := by
  intro f1
  induction f1 with
  | zero =>
    intro buf f2 h1 _
    have hb : buf = [] := List.eq_nil_of_length_eq_zero (Nat.le_zero.mp h1)
    subst hb
    cases f2 <;> simp [pbGo, scanStep_nil]
  | succ a ih =>
    intro buf f2 h1 h2
    cases f2 with
    | zero =>
      have hb : buf = [] := List.eq_nil_of_length_eq_zero (Nat.le_zero.mp h2)
      subst hb
      simp [pbGo, scanStep_nil]
    | succ b =>
      simp only [pbGo]
      cases hs : scanStep buf with
      | stuck => rfl
      | clear => rfl
      | frame body rest =>
        have hl := scanStep_frame_length hs
        show ((pbGo a rest).1, body :: (pbGo a rest).2)
          = ((pbGo b rest).1, body :: (pbGo b rest).2)
        rw [ih rest b (by omega) (by omega)]

theorem processBuf_stuck {buf : List Char} (h : scanStep buf = .stuck) :
    processBuf buf = (buf, []) := by
  unfold processBuf
  cases hm : buf.length with
  | zero => simp [pbGo]
  | succ m => simp only [pbGo, h]

theorem processBuf_clear {buf : List Char} (h : scanStep buf = .clear) :
    processBuf buf = ([], []) := by
  obtain ⟨m, hm⟩ := @scanStep_ne_stuck_length buf (by rw [h]; simp)
  unfold processBuf
  rw [hm]
  simp only [pbGo, h]

theorem processBuf_frame {buf body rest : List Char}
    (h : scanStep buf = .frame body rest) :
    processBuf buf = ((processBuf rest).1, body :: (processBuf rest).2) := by
  obtain ⟨m, hm⟩ := @scanStep_ne_stuck_length buf (by rw [h]; simp)
  have hl := scanStep_frame_length h
  unfold processBuf
  rw [hm]
  simp only [pbGo, h]
  rw [pbGo_congr m rest rest.length (by omega) le_rfl]

theorem firstSep_cons_notCR {c : Char} (hc : c ≠ '\r') (cs : List Char) :
    firstSep (c :: cs) = (firstSep cs).map (· + 1) := by
  have hp : ¬ (sepL.isPrefixOf (c :: cs) = true) := by
    intro h
    obtain ⟨t, ht⟩ := List.isPrefixOf_iff_prefix.mp h
    rw [show sepL ++ t = '\r' :: (['\n', '\r', '\n'] ++ t) from rfl] at ht
    exact hc (List.head_eq_of_cons_eq ht.symm)
  show (if sepL.isPrefixOf (c :: cs) = true then some 0
    else (firstSep cs).map (· + 1)) = (firstSep cs).map (· + 1)
  rw [if_neg hp]

theorem firstSep_append_clean {H : List Char} (hH : ∀ c ∈ H, c ≠ '\r') (t : List Char) :
    firstSep (H ++ t) = (firstSep t).map (· + H.length) := by
  induction H with
  | nil => rcases h : firstSep t with _ | k <;> simp [h]
  | cons c H ih =>
    have hc : c ≠ '\r' := hH c (by simp)
    rw [List.cons_append, firstSep_cons_notCR hc,
      ih (fun d hd => hH d (by simp [hd]))]
    rcases h : firstSep t with _ | k
    · rfl
    · simp [Nat.add_assoc]

theorem firstSep_sepL (t : List Char) : firstSep (sepL ++ t) = some 0 := by
  have hp : sepL.isPrefixOf (sepL ++ t) = true :=
    List.isPrefixOf_iff_prefix.mpr (List.prefix_append _ _)
  rw [show sepL ++ t = '\r' :: ('\n' :: '\r' :: '\n' :: t) from rfl] at hp ⊢
  show (if sepL.isPrefixOf ('\r' :: '\n' :: '\r' :: '\n' :: t) = true then some 0
    else (firstSep ('\n' :: '\r' :: '\n' :: t)).map (· + 1)) = some 0
  rw [if_pos hp]

theorem firstSep_clean_none {H : List Char} (hH : ∀ c ∈ H, c ≠ '\r') :
    firstSep H = none := by
  have := firstSep_append_clean hH []
  simpa using this

theorem isDigit_ne_cr {c : Char} (h : c.isDigit = true) : c ≠ '\r' := by
  intro he
  subst he
  simp [Char.isDigit] at h

theorem clMatchHere_exact {digits : List Char} (h1 : digits ≠ [])
    (h2 : ∀ c ∈ digits, c.isDigit) :
    clMatchHere (clLit ++ digits) = some (digitsVal digits) := by
  unfold clMatchHere
  rw [if_pos (List.isPrefixOf_iff_prefix.mpr (List.prefix_append _ _))]
  rw [List.drop_left, List.takeWhile_eq_self_iff.mpr h2]
  simp [h1]

theorem clFind_exact {digits : List Char} (h1 : digits ≠ [])
    (h2 : ∀ c ∈ digits, c.isDigit) :
    clFind (clLit ++ digits) = some (digitsVal digits) := by
  have h := clMatchHere_exact h1 h2
  show clFind ('C' :: (clLit.tail ++ digits)) = some (digitsVal digits)
  unfold clFind
  rw [show ('C' : Char) :: (clLit.tail ++ digits) = clLit ++ digits from rfl, h]

theorem clLit_clean : ∀ c ∈ clLit, c ≠ '\r' := by decide

theorem optMap_add_zero (n : Nat) :
    Option.map (fun x => x + n) (some 0) = some n := by simp

/-- The header part `Content-Length: <digits>` of a well-formed frame
contains no carriage return. -/
theorem header_clean {f : Frame} (hf : f.wf) :
    ∀ c ∈ clLit ++ f.digits, c ≠ '\r' := by
  intro c hc
  rcases List.mem_append.mp hc with h | h
  · exact clLit_clean c h
  · exact isDigit_ne_cr (hf.2.1 c h)

/-- Scanning a buffer that starts with a complete well-formed frame
extracts exactly that frame's body, leaving the rest untouched. -/
theorem scanStep_encode {f : Frame} (hf : f.wf) (t : List Char) :
    scanStep (f.encode ++ t) = .frame f.body t := by
  obtain ⟨hd, hdig, hlen, hbound⟩ := hf
  set H := clLit ++ f.digits with hHdef
  have hbuf : f.encode ++ t = H ++ (sepL ++ (f.body ++ t)) := by
    simp [Frame.encode, hHdef, List.append_assoc]
  have hfs : firstSep (f.encode ++ t) = some H.length := by
    rw [hbuf, firstSep_append_clean (header_clean ⟨hd, hdig, hlen, hbound⟩),
      firstSep_sepL, optMap_add_zero]
  have htake : (f.encode ++ t).take H.length = H := by
    rw [hbuf, List.take_left]
  have hcl : clFind ((f.encode ++ t).take H.length) = some f.val := by
    rw [htake, hHdef, clFind_exact hd hdig]
    rfl
  have hlen4 : (H ++ sepL).length = H.length + 4 := by
    simp [sepL]
  have hlenb : (H ++ sepL ++ f.body).length = H.length + 4 + f.val := by
    simp [sepL]
    omega
  have hdrop : (f.encode ++ t).drop (H.length + 4) = f.body ++ t := by
    rw [hbuf, ← List.append_assoc, List.drop_left' hlen4]
  have hdrop2 : (f.encode ++ t).drop (H.length + 4 + f.val) = t := by
    rw [hbuf, ← List.append_assoc, ← List.append_assoc, List.drop_left' hlenb]
  have hlentot : (f.encode ++ t).length = H.length + 4 + f.val + t.length := by
    rw [hbuf]
    simp [sepL]
    omega
  unfold scanStep
  rw [hfs]
  show (match clFind ((f.encode ++ t).take H.length) with
    | none => StepRes.clear
    | some length =>
      if length > 1000000 then StepRes.clear
      else if (f.encode ++ t).length < H.length + 4 + length then StepRes.stuck
      else StepRes.frame (((f.encode ++ t).drop (H.length + 4)).take length)
        ((f.encode ++ t).drop (H.length + 4 + length))) = StepRes.frame f.body t
  rw [hcl]
  show (if f.val > 1000000 then StepRes.clear
    else if (f.encode ++ t).length < H.length + 4 + f.val then StepRes.stuck
    else StepRes.frame (((f.encode ++ t).drop (H.length + 4)).take f.val)
      ((f.encode ++ t).drop (H.length + 4 + f.val))) = StepRes.frame f.body t
  rw [if_neg (by omega), if_neg (by omega), hdrop, hdrop2,
    List.take_left' hlen]

/-- Scanning a proper prefix of a well-formed frame makes no progress:
either the header terminator is not complete yet, or the declared body
is not fully buffered. -/
theorem scanStep_prefix_stuck {f : Frame} (hf : f.wf) {p : List Char}
    (hp : p <+: f.encode) (hlt : p.length < f.encode.length) :
    scanStep p = .stuck := by
  obtain ⟨hd, hdig, hlen, hbound⟩ := hf
  have hclean : ∀ c ∈ clLit ++ f.digits, c ≠ '\r' :=
    header_clean ⟨hd, hdig, hlen, hbound⟩
  set H := clLit ++ f.digits with hHdef
  have henc : f.encode = H ++ (sepL ++ f.body) := by
    simp [Frame.encode, hHdef, List.append_assoc]
  have hptake : p = f.encode.take p.length := List.prefix_iff_eq_take.mp hp
  have hel : f.encode.length = H.length + 4 + f.val := by
    rw [henc]
    simp [sepL]
    omega
  by_cases hc1 : p.length ≤ H.length
  · -- the header terminator is not yet in the buffer
    have hpH : p = H.take p.length := by
      conv_lhs => rw [hptake]
      rw [henc, List.take_append_eq_append_take,
        Nat.sub_eq_zero_of_le hc1, List.take_zero, List.append_nil]
    have hcleanp : ∀ c ∈ p, c ≠ '\r' := by
      intro c hcp
      exact hclean c (List.mem_of_mem_take (hpH ▸ hcp))
    unfold scanStep
    rw [firstSep_clean_none hcleanp]
  · by_cases hc2 : p.length ≤ H.length + 3
    · -- part of the terminator, but not all of it, is buffered
      have hpH : p = H ++ sepL.take (p.length - H.length) := by
        conv_lhs => rw [hptake]
        rw [henc, List.take_append_eq_append_take,
          List.take_of_length_le (by omega), List.take_append_eq_append_take]
        have hz : p.length - H.length - sepL.length = 0 := by
          simp only [sepL, List.length_cons, List.length_nil]
          omega
        rw [hz, List.take_zero, List.append_nil]
      have hsep : firstSep (sepL.take (p.length - H.length)) = none := by
        have h3 : p.length - H.length = 1 ∨ p.length - H.length = 2 ∨
            p.length - H.length = 3 := by omega
        rcases h3 with h3 | h3 | h3 <;> rw [h3] <;> rfl
      unfold scanStep
      rw [hpH, firstSep_append_clean hclean, hsep]
      rfl
    · -- full header and terminator, but the body is incomplete
      have hj : p.length - H.length - 4 < f.val := by omega
      have hpH : p = H ++ sepL ++ f.body.take (p.length - H.length - 4) := by
        conv_lhs => rw [hptake]
        rw [henc, List.take_append_eq_append_take,
          List.take_of_length_le (by omega), List.take_append_eq_append_take,
          List.take_of_length_le (show sepL.length ≤ p.length - H.length by
            simp only [sepL, List.length_cons, List.length_nil]
            omega)]
        simp only [sepL, List.length_cons, List.length_nil, List.append_assoc]
      have hfs : firstSep p = some H.length := by
        rw [hpH, List.append_assoc, firstSep_append_clean hclean, firstSep_sepL,
          optMap_add_zero]
      have htake : p.take H.length = H := by
        rw [hpH, List.append_assoc, List.take_left]
      have hplen : p.length = H.length + 4 + (p.length - H.length - 4) := by
        omega
      have hcl : clFind (p.take H.length) = some f.val := by
        rw [htake, hHdef, clFind_exact hd hdig]
        rfl
      unfold scanStep
      rw [hfs]
      show (match clFind (p.take H.length) with
        | none => StepRes.clear
        | some length =>
          if length > 1000000 then StepRes.clear
          else if p.length < H.length + 4 + length then StepRes.stuck
          else StepRes.frame ((p.drop (H.length + 4)).take length)
            (p.drop (H.length + 4 + length))) = StepRes.stuck
      rw [hcl]
      show (if f.val > 1000000 then StepRes.clear
        else if p.length < H.length + 4 + f.val then StepRes.stuck
        else StepRes.frame ((p.drop (H.length + 4)).take f.val)
          (p.drop (H.length + 4 + f.val))) = StepRes.stuck
      rw [if_neg (by omega), if_pos (by omega)]

/-- Running the loop on a buffer that starts with a sequence of complete
well-formed frames emits all their bodies and then continues on the
remainder, whatever it is. -/
theorem processBuf_stream {F : List Frame} (hF : ∀ f ∈ F, f.wf) (t : List Char) :
    processBuf (frameStream F ++ t)
      = ((processBuf t).1, F.map Frame.body ++ (processBuf t).2) := by
  induction F with
  | nil => simp [frameStream]
  | cons f F ih =>
    have hbuf : frameStream (f :: F) ++ t = f.encode ++ (frameStream F ++ t) := by
      simp [frameStream, List.append_assoc]
    rw [hbuf, processBuf_frame (scanStep_encode (hF f (by simp)) _),
      ih (fun g hg => hF g (by simp [hg]))]
    simp

/-- Decomposition of the loop on an arbitrary prefix of a well-formed
frame stream: some initial segment of complete frames is emitted and
the leftover buffer is a partial frame the loop is stuck on. -/
theorem processBuf_prefix : ∀ (F : List Frame), (∀ f ∈ F, f.wf) →
    ∀ {s : List Char}, s <+: frameStream F →
    ∃ k r, k ≤ F.length ∧ s = frameStream (F.take k) ++ r ∧
      processBuf s = (r, (F.take k).map Frame.body) ∧ scanStep r = .stuck := by
  intro F
  induction F with
  | nil =>
    intro _ s hs
    have : s = [] := List.prefix_nil.mp (by simpa [frameStream] using hs)
    subst this
    exact ⟨0, [], by simp, by simp [frameStream], processBuf_stuck scanStep_nil,
      scanStep_nil⟩
  | cons f F ih =>
    intro hF s hs
    have hwf : f.wf := hF f (by simp)
    have hstream : frameStream (f :: F) = f.encode ++ frameStream F := by
      simp [frameStream]
    have h1 : s <+: f.encode ++ frameStream F := by rwa [hstream] at hs
    have h2 : f.encode <+: f.encode ++ frameStream F := List.prefix_append _ _
    by_cases hl : s.length < f.encode.length
    · have hpf : s <+: f.encode :=
        List.prefix_of_prefix_length_le h1 h2 (le_of_lt hl)
      have hstuck := scanStep_prefix_stuck hwf hpf hl
      exact ⟨0, s, by simp, by simp [frameStream], processBuf_stuck hstuck, hstuck⟩
    · have hep : f.encode <+: s :=
        List.prefix_of_prefix_length_le h2 h1 (by omega)
      obtain ⟨s', rfl⟩ := hep
      have hs' : s' <+: frameStream F := by
        rw [hstream] at hs
        obtain ⟨u, hu⟩ := hs
        exact ⟨u, List.append_cancel_left (by rw [← hu, List.append_assoc])⟩
      obtain ⟨k, r, hk, hdecomp, hpb, hstuck⟩ :=
        ih (fun g hg => hF g (by simp [hg])) hs'
      refine ⟨k + 1, r, by simp; omega, ?_, ?_, hstuck⟩
      · rw [List.take_succ_cons, show frameStream (f :: F.take k)
          = f.encode ++ frameStream (F.take k) by simp [frameStream],
          hdecomp, List.append_assoc]
      · rw [processBuf_frame (scanStep_encode hwf s'), hpb, List.take_succ_cons,
          List.map_cons]

/-- Main invariance lemma at the string level: feeding any sequence of
string pieces whose concatenation completes a well-formed frame stream,
starting from a stuck leftover buffer, emits exactly the stream's
bodies and ends with an empty buffer. -/
theorem feedStrs_stream : ∀ (cs : List (List Char)) (F : List Frame)
    (r : List Char), (∀ f ∈ F, f.wf) → scanStep r = .stuck →
    r ++ cs.flatten = frameStream F →
    feedStrs r cs = ([], F.map Frame.body) := by
  intro cs
  induction cs with
  | nil =>
    intro F r hF hstuck heq
    simp only [List.flatten_nil, List.append_nil] at heq
    cases F with
    | nil =>
      simp only [frameStream, List.map_nil, List.flatten_nil] at heq
      subst heq
      rfl
    | cons f F =>
      rw [show frameStream (f :: F) = f.encode ++ frameStream F by
        simp [frameStream]] at heq
      rw [heq, scanStep_encode (hF f (by simp))] at hstuck
      exact absurd hstuck (by simp)
  | cons c cs ih =>
    intro F r hF hstuck heq
    have hpre : (r ++ c) <+: frameStream F := by
      refine ⟨cs.flatten, ?_⟩
      rw [← heq]
      simp [List.append_assoc]
    obtain ⟨k, r', hk, hdecomp, hpb, hstuck'⟩ := processBuf_prefix F hF hpre
    have hsplitF : frameStream F = frameStream (F.take k) ++ frameStream (F.drop k) := by
      unfold frameStream
      rw [← List.flatten_append, ← List.map_append, List.take_append_drop]
    have heq' : r' ++ cs.flatten = frameStream (F.drop k) := by
      have hboth : frameStream (F.take k) ++ (r' ++ cs.flatten)
          = frameStream (F.take k) ++ frameStream (F.drop k) := by
        rw [← hsplitF, ← heq, ← List.append_assoc, ← hdecomp]
        simp [List.append_assoc]
      exact List.append_cancel_left hboth
    have hrec := ih (F.drop k) r' (fun g hg => hF g (List.mem_of_mem_drop hg))
      hstuck' heq'
    show ((feedStrs (processBuf (r ++ c)).1 cs).1,
      (processBuf (r ++ c)).2 ++ (feedStrs (processBuf (r ++ c)).1 cs).2)
      = ([], F.map Frame.body)
    rw [hpb]
    simp only [hrec]
    rw [← List.map_append, List.take_append_drop]

/-! ### Claim C1 and C2 theorems

Both claims quantify over the inbound BYTE stream, so their theorems
are stated over byte chunks fed through `handleServerData` (per-chunk
`toString()` decode included).  The bridge lemmas reduce the ASCII
case, where one byte is one character under every partition, to the
string-level stream lemmas above. -/

/-- On ASCII bytes the UTF-8 decode is the byte-wise character map,
independent of where chunk boundaries fall. -/
theorem utf8Step_ascii {b : Nat} (hb : b < 0x80) (bs : List Nat) :
    utf8Step b bs = (Char.ofNat b, bs) := by
  unfold utf8Step
  rw [if_pos hb]

theorem utf8Decode_ascii : ∀ {c : List Nat}, (∀ b ∈ c, b < 0x80) →
    utf8Decode c = c.map Char.ofNat := by
  intro c
  induction c with
  | nil => intro _; rfl
  | cons b bs ih =>
    intro h
    have hb : b < 0x80 := h b (by simp)
    show utf8Go (b :: bs).length (b :: bs) = _
    rw [List.length_cons]
    simp only [utf8Go, utf8Step_ascii hb]
    rw [show utf8Go bs.length bs = utf8Decode bs from rfl,
      ih (fun x hx => h x (by simp [hx]))]
    rfl

/-- For ASCII chunks, decoding the concatenation equals concatenating
the per-chunk decodes: ASCII partitions cannot garble the stream. -/
theorem utf8Decode_flatten_ascii {bs : List (List Nat)}
    (h : ∀ c ∈ bs, ∀ b ∈ c, b < 0x80) :
    utf8Decode bs.flatten = (bs.map utf8Decode).flatten := by
  have hall : ∀ b ∈ bs.flatten, b < 0x80 := by
    intro b hb
    obtain ⟨c, hc, hbc⟩ := List.mem_flatten.mp hb
    exact h c hc b hbc
  rw [utf8Decode_ascii hall, List.map_flatten]
  congr 1
  exact List.map_congr_left (fun c hc => (utf8Decode_ascii (h c hc)).symm)

/-- Feeding byte chunks is feeding their individual string decodes. -/
theorem feedChunks_eq_feedStrs : ∀ (bs : List (List Nat)) (buf : List Char),
    feedChunks buf bs = feedStrs buf (bs.map utf8Decode) := by
  intro bs
  induction bs with
  | nil => intro buf; rfl
  | cons c cs ih =>
    intro buf
    simp only [feedChunks, handleServerData, List.map_cons, feedStrs, ih]

/-- C2 counterexample: a well-formed byte stream (header declaring 4,
body the four UTF-8 bytes of the JSON text `"\u00e9"`, i.e. a quoted
e-acute) decodes differently under two byte partitions.  Delivered as a
single chunk, the 2-byte character becomes one UTF-16 unit, the buffer
stays one unit short of the declared byte count, and nothing is ever
decoded; with the partition split between the two bytes of the
character, each half is converted to a U+FFFD replacement character by
the per-chunk `toString()`, the unit count reaches the byte count, and
a garbled body is emitted.  The two decoded body sequences differ, so
the claimed invariance over arbitrary byte partitions is false. -/
theorem chunking_not_invariant_on_byte_splits :
    decodedBodies
      [asciiBytes "Content-Length: 4\r\n\r\n" ++ [0x22, 0xC3, 0xA9, 0x22]]
      = [] ∧
    decodedBodies
      [asciiBytes "Content-Length: 4\r\n\r\n" ++ [0x22, 0xC3], [0xA9, 0x22]]
      = [[Char.ofNat 0x22, replChar, replChar, Char.ofNat 0x22]] ∧
    decodedBodies
      [asciiBytes "Content-Length: 4\r\n\r\n" ++ [0x22, 0xC3, 0xA9, 0x22]]
      ≠ decodedBodies
      [asciiBytes "Content-Length: 4\r\n\r\n" ++ [0x22, 0xC3], [0xA9, 0x22]] := by
  decide

/-- C2 (amended): for every well-formed frame stream consisting of
ASCII bytes, feeding ANY partition of it into byte chunks one at a time
produces exactly the same sequence of decoded message bodies as feeding
the entire stream as a single chunk — namely the frames' bodies in
order.  (The restriction to ASCII is forced by the counterexample: a
chunk boundary inside a multi-byte character garbles the per-chunk
`toString()` output, and the byte-valued `Content-Length` is compared
against the buffer's UTF-16 length, so non-ASCII streams violate the
original claim.) -/
theorem chunking_invariance_ascii (F : List Frame) (bs : List (List Nat))
    (hF : ∀ f ∈ F, f.wf)
    (hascii : ∀ c ∈ bs, ∀ b ∈ c, b < 0x80)
    (hbs : utf8Decode bs.flatten = frameStream F) :
    (feedChunks [] bs).2 = (feedChunks [] [bs.flatten]).2 ∧
    (feedChunks [] bs).2 = F.map Frame.body ∧
    decodedBodies bs = decodedBodies [bs.flatten] := by
  have hmap : (bs.map utf8Decode).flatten = frameStream F := by
    rw [← utf8Decode_flatten_ascii hascii, hbs]
  have h1 : feedChunks [] bs = ([], F.map Frame.body) := by
    rw [feedChunks_eq_feedStrs]
    exact feedStrs_stream (bs.map utf8Decode) F [] hF scanStep_nil
      (by simpa using hmap)
  have h2 : feedChunks [] [bs.flatten] = ([], F.map Frame.body) := by
    rw [feedChunks_eq_feedStrs]
    refine feedStrs_stream [utf8Decode bs.flatten] F [] hF scanStep_nil ?_
    simpa using hbs
  refine ⟨by rw [h1, h2], by rw [h1], ?_⟩
  unfold decodedBodies
  rw [h1, h2]

/-- Witness for `chunking_invariance_ascii`: a two-frame ASCII byte
stream cut into five chunks at positions unrelated to the frame
boundaries decodes to the same two bodies as single-chunk delivery. -/
theorem chunking_invariance_ascii_witness :
    (feedChunks [] [asciiBytes "Content-Le", asciiBytes "ngth: 17\r\n",
        asciiBytes "\r\nabcdefghi", asciiBytes "jklmnopqContent-Length: 2\r\n\r",
        asciiBytes "\n<>"]).2
      = (feedChunks [] [[asciiBytes "Content-Le", asciiBytes "ngth: 17\r\n",
          asciiBytes "\r\nabcdefghi", asciiBytes "jklmnopqContent-Length: 2\r\n\r",
          asciiBytes "\n<>"].flatten]).2 ∧
    (feedChunks [] [asciiBytes "Content-Le", asciiBytes "ngth: 17\r\n",
        asciiBytes "\r\nabcdefghi", asciiBytes "jklmnopqContent-Length: 2\r\n\r",
        asciiBytes "\n<>"]).2
      = List.map Frame.body
          [⟨"17".toList, "abcdefghijklmnopq".toList⟩,
           ⟨"2".toList, "<>".toList⟩] ∧
    decodedBodies [asciiBytes "Content-Le", asciiBytes "ngth: 17\r\n",
        asciiBytes "\r\nabcdefghi", asciiBytes "jklmnopqContent-Length: 2\r\n\r",
        asciiBytes "\n<>"]
      = decodedBodies [[asciiBytes "Content-Le", asciiBytes "ngth: 17\r\n",
          asciiBytes "\r\nabcdefghi", asciiBytes "jklmnopqContent-Length: 2\r\n\r",
          asciiBytes "\n<>"].flatten] :=
  chunking_invariance_ascii
    [⟨"17".toList, "abcdefghijklmnopq".toList⟩, ⟨"2".toList, "<>".toList⟩]
    [asciiBytes "Content-Le", asciiBytes "ngth: 17\r\n",
     asciiBytes "\r\nabcdefghi", asciiBytes "jklmnopqContent-Length: 2\r\n\r",
     asciiBytes "\n<>"]
    (by decide) (by decide) (by decide)

/-- C1 counterexample: a single byte chunk holding one corrupted header
region (`XYZ\r\n\r\n`) followed by a complete well-formed frame.  The
claim says the decoder discards only the corrupted region and decodes
the well-formed frame that is already buffered, i.e. the decoded bodies
would be the buffered frame's body; the code instead clears the entire
buffer (`this.messageBuffer = ''`), so nothing at all is decoded,
although the very same frame decodes fine on its own. -/
theorem corrupted_header_discards_buffered_frames :
    decodedBodies [asciiBytes "XYZ\r\n\r\nContent-Length: 2\r\n\r\n<>"] = [] ∧
    decodedBodies [asciiBytes "Content-Length: 2\r\n\r\n<>"] = ["<>".toList] := by
  decide

/-- C1 (amended): when the loop detects a corrupted frame in the
buffer — the text before the first `\r\n\r\n` does not match the
`Content-Length` pattern, or the declared length is outside
`[0, 1000000]`; exactly the condition `scanStep = .clear` — it discards
the ENTIRE accumulated buffer, including any well-formed frames already
buffered behind the corruption, and then decodes every well-formed
ASCII frame that arrives in later byte chunks.  (The ASCII restriction
on the later frames is forced by the byte-split counterexample to
chunking invariance.) -/
theorem corruption_clears_buffer_then_recovers
    (b0 : List Nat) (F : List Frame) (bs : List (List Nat))
    (hcorrupt : scanStep (utf8Decode b0) = .clear)
    (hF : ∀ f ∈ F, f.wf)
    (hascii : ∀ c ∈ bs, ∀ b ∈ c, b < 0x80)
    (hbs : utf8Decode bs.flatten = frameStream F) :
    (feedChunks [] (b0 :: bs)).2 = F.map Frame.body := by
  have hmap : (bs.map utf8Decode).flatten = frameStream F := by
    rw [← utf8Decode_flatten_ascii hascii, hbs]
  have h0 : processBuf (utf8Decode b0) = ([], []) :=
    processBuf_clear hcorrupt
  have h2 := feedStrs_stream (bs.map utf8Decode) F [] hF scanStep_nil
    (by simpa using hmap)
  rw [feedChunks_eq_feedStrs]
  simp only [List.map_cons, feedStrs, h0, h2, List.nil_append]

/-- Witness for `corruption_clears_buffer_then_recovers`: the corrupted
chunk even has a complete well-formed frame sitting right behind the bad
header — it is lost with the buffer — and the frame arriving in the next
byte chunk is decoded. -/
theorem corruption_clears_buffer_then_recovers_witness :
    (feedChunks [] (asciiBytes "XYZ\r\n\r\nContent-Length: 5\r\n\r\nhello" ::
        [asciiBytes "Content-Length: 2\r\n\r\n<>"])).2
      = List.map Frame.body [⟨"2".toList, "<>".toList⟩] :=
  corruption_clears_buffer_then_recovers
    (asciiBytes "XYZ\r\n\r\nContent-Length: 5\r\n\r\nhello")
    [⟨"2".toList, "<>".toList⟩]
    [asciiBytes "Content-Length: 2\r\n\r\n<>"]
    (by decide) (by decide) (by decide) (by decide)

/-! ### Claim C3: session teardown vs pending requests -/

/-- C3 counterexample: a session with a pending request (id 2) is torn
down via `LSPManager.stop`.  The claim says the pending future is
rejected with a `SessionStopped` error; the code's
`messageHandlers.clear()` instead drops the entry without invoking its
handler at all — teardown produces no handler invocation (no `invoke`
event, with or without an error), leaving the promise forever
unresolved. -/
theorem stop_leaves_pending_unrejected :
    (let r := runClient initialClient
        [COp.startInit, COp.inbound ⟨some 1, none, false⟩, COp.reqCompletion]
     let m : MState := { initialManager getBuiltInDefaults with
        client := r.1, isEnabled := true }
     r.1.messageHandlers = [2] ∧
     (stopM m).2 = [] ∧
     (stopM m).1.client.messageHandlers = [] ∧
     CEvent.invoke 2 true ∉ (stopM m).2 ∧
     CEvent.invoke 2 false ∉ (stopM m).2) := by
  decide

/-- C3 (amended): tearing down a session (`stop`, and the teardown half
of `switchServer`, which delegates to it) removes every pending entry
from the table but invokes none of them: no pending future is resolved
or rejected — there is no `SessionStopped` rejection — so the entries
are discarded, not settled. -/
theorem stop_clears_pending_without_invoking (m : MState) (serverName : String)
    (ok : Bool) :
    (stopM m).2 = [] ∧
    (stopM m).1.client.messageHandlers = [] ∧
    (stopM m).1.isEnabled = false ∧
    (stopM m).1.currentUri = none ∧
    (stopM m).1.diagnostics = [] ∧
    (match switchServer m serverName ok with
      | .ok p => p.2 = []
      | .error _ => True) := by
  refine ⟨rfl, rfl, rfl, rfl, rfl, ?_⟩
  unfold switchServer
  rcases hfind : (m.config.servers.filter (fun s => s.enabled)).find?
      (fun s => s.name == serverName) with _ | sc
  · simp only [hfind]
  · cases hok : ok
    · simp [hfind]
    · cases he : m.isEnabled <;> simp [hfind, he, stopM, stepClient]

/-! ### Claim C5: one document per session -/

/-- C5 counterexample: with document `/a.ts` open, `openDocument` for
`/b.ts` emits only a `didOpen` for the new document — no `didClose` for
the previously open `file:///a.ts` is issued, so the previous document
is not implicitly closed as the claim states. -/
theorem open_does_not_close_previous :
    (let m0 := initializeM (initialManager getBuiltInDefaults) (some "/a.ts") true
     let p1 := openDocument m0 "/a.ts" "let x = 1"
     let p2 := openDocument p1.1 "/b.ts" "let y = 2"
     p1.1.currentUri = some "file:///a.ts" ∧
     p2.2 = [Notif.didOpen "file:///b.ts" "typescript" 1 "let y = 2"] ∧
     Notif.didClose "file:///a.ts" ∉ p2.2) := by
  decide

/-- C5 (amended): the session tracks at most one open document (the
single `currentUri` field), and `openDocument` simply overwrites it:
the call emits exactly one `didOpen` for the new document and no
`didClose` for whatever was open before. -/
theorem openDocument_overwrites_single_doc (m : MState) (f c : String)
    (h : isReadyM m = true) :
    (openDocument m f c).1.currentUri = some (getFileUri f) ∧
    (openDocument m f c).2
      = [Notif.didOpen (getFileUri f) (getLanguageId m.config f) 1 c] ∧
    ∀ u, Notif.didClose u ∉ (openDocument m f c).2 := by
  have hinit : m.client.isInitialized = true := by
    have h' := h
    simp only [isReadyM, Bool.and_eq_true] at h'
    exact h'.2
  unfold openDocument
  simp [h, hinit]

/-- Witness for `openDocument_overwrites_single_doc` at a freshly
initialized session. -/
theorem openDocument_overwrites_single_doc_witness :
    (openDocument (initializeM (initialManager getBuiltInDefaults)
        (some "/a.ts") true) "/a.ts" "let x = 1").1.currentUri
      = some (getFileUri "/a.ts") ∧
    (openDocument (initializeM (initialManager getBuiltInDefaults)
        (some "/a.ts") true) "/a.ts" "let x = 1").2
      = [Notif.didOpen (getFileUri "/a.ts")
          (getLanguageId (initializeM (initialManager getBuiltInDefaults)
            (some "/a.ts") true).config "/a.ts") 1 "let x = 1"] ∧
    ∀ u, Notif.didClose u ∉ (openDocument (initializeM
        (initialManager getBuiltInDefaults) (some "/a.ts") true)
        "/a.ts" "let x = 1").2 :=
  openDocument_overwrites_single_doc
    (initializeM (initialManager getBuiltInDefaults) (some "/a.ts") true)
    "/a.ts" "let x = 1" (by decide)

/-! ### Claim C7: full-text sync and the version counter -/

/-- C7 counterexample: two successive `updateDocument` calls both carry
version `1` in their `didChange` notifications — the version is the
hard-coded literal `1` in `LSPManager.updateDocument`, not an
incrementing per-session counter (the second call would carry version 2
if the claim held). -/
theorem didChange_version_never_increments :
    (let m0 := initializeM (initialManager getBuiltInDefaults) (some "/a.ts") true
     let m1 := (openDocument m0 "/a.ts" "v1").1
     let u1 := updateDocument m1 "/a.ts" "v2"
     let u2 := updateDocument u1.1 "/a.ts" "v3"
     u1.2 = [Notif.didChange "file:///a.ts" 1 "v2"] ∧
     u2.2 = [Notif.didChange "file:///a.ts" 1 "v3"] ∧
     u2.2 ≠ [Notif.didChange "file:///a.ts" 2 "v3"]) := by
  decide

/-- C7 (amended): every `updateDocument` call on a ready session with an
open document sends a single `didChange` carrying the complete current
text (full-document sync, no deltas), with the version field always the
constant `1`; the session state is unchanged. -/
theorem updateDocument_full_text_constant_version (m : MState) (f c u : String)
    (h : isReadyM m = true) (hu : m.currentUri = some u) :
    updateDocument m f c = (m, [Notif.didChange u 1 c]) := by
  have hinit : m.client.isInitialized = true := by
    have h' := h
    simp only [isReadyM, Bool.and_eq_true] at h'
    exact h'.2
  unfold updateDocument
  simp [h, hu, hinit]

/-- Witness for `updateDocument_full_text_constant_version`. -/
theorem updateDocument_full_text_constant_version_witness :
    updateDocument (openDocument (initializeM (initialManager getBuiltInDefaults)
        (some "/a.ts") true) "/a.ts" "v1").1 "/a.ts" "v2"
      = ((openDocument (initializeM (initialManager getBuiltInDefaults)
          (some "/a.ts") true) "/a.ts" "v1").1,
         [Notif.didChange "file:///a.ts" 1 "v2"]) :=
  updateDocument_full_text_constant_version
    (openDocument (initializeM (initialManager getBuiltInDefaults)
      (some "/a.ts") true) "/a.ts" "v1").1
    "/a.ts" "v2" "file:///a.ts" (by decide) (by decide)

/-! ### Claim C6: server resolution -/

/-- C6: `getServerForFile` returns the best descriptor among the
candidates `compatibleServersFor` (enabled servers whose extension set
contains the file's extension): `none` exactly when there is no
candidate; the configured default server (a nonempty name, per the JS
truthiness guard) when a candidate carries that name; otherwise the
first candidate in declared config order.  In particular, for servers
`a` and `b` both enabled for `.ts` with `defaultServer = "b"`,
resolving `foo.ts` returns `b`. -/
theorem resolve_best_descriptor :
    (∀ cfg fp, getServerForFile cfg fp = none ↔ compatibleServersFor cfg fp = []) ∧
    (∀ cfg fp d s, cfg.defaultServer = some d → d ≠ "" →
      (compatibleServersFor cfg fp).find? (fun x => x.name == d) = some s →
      getServerForFile cfg fp = some s) ∧
    (∀ cfg fp c rest, compatibleServersFor cfg fp = c :: rest →
      (∀ d, cfg.defaultServer = some d → d ≠ "" →
        (compatibleServersFor cfg fp).find? (fun x => x.name == d) = none) →
      getServerForFile cfg fp = some c) ∧
    getServerForFile
      ⟨[⟨"a", "a-lsp", [], [".ts"], ["typescript"], true⟩,
        ⟨"b", "b-lsp", [], [".ts"], ["typescript"], true⟩],
       some "b", true⟩ "foo.ts"
      = some ⟨"b", "b-lsp", [], [".ts"], ["typescript"], true⟩ := by
  refine ⟨?_, ?_, ?_, by decide⟩
  · intro cfg fp
    unfold getServerForFile
    rcases hc : compatibleServersFor cfg fp with _ | ⟨c, rest⟩
    · simp
    · constructor
      · intro h
        rcases hd : cfg.defaultServer with _ | d <;> simp only [hd] at h
        · simp at h
        · by_cases he : d = ""
          · simp [he] at h
          · rw [if_neg he] at h
            rcases hf : (c :: rest).find? (fun x => x.name == d)
              with _ | ds <;> rw [hf] at h <;> simp at h
      · intro h; exact absurd h (by simp)
  · intro cfg fp d s hd hne hfind
    have hne2 : compatibleServersFor cfg fp ≠ [] := by
      intro h0
      rw [h0] at hfind
      simp at hfind
    unfold getServerForFile
    rcases hc : compatibleServersFor cfg fp with _ | ⟨c, rest⟩
    · exact absurd hc hne2
    · rw [hc] at hfind
      simp only [hd, hne, if_false, hfind]
  · intro cfg fp c rest hc hnone
    unfold getServerForFile
    rw [hc]
    rcases hd : cfg.defaultServer with _ | d
    · simp only [hd]
    · simp only [hd]
      by_cases he : d = ""
      · simp [he]
      · have hn := hnone d hd he
        rw [hc] at hn
        simp only [he, if_false, hn]

/-- Witness for `resolve_best_descriptor`: the scenario-B configuration
resolved through the default-server conjunct. -/
theorem resolve_best_descriptor_witness :
    getServerForFile
      ⟨[⟨"a", "a-lsp", [], [".ts"], ["typescript"], true⟩,
        ⟨"b", "b-lsp", [], [".ts"], ["typescript"], true⟩],
       some "b", true⟩ "foo.ts"
      = some ⟨"b", "b-lsp", [], [".ts"], ["typescript"], true⟩ :=
  resolve_best_descriptor.2.1
    ⟨[⟨"a", "a-lsp", [], [".ts"], ["typescript"], true⟩,
      ⟨"b", "b-lsp", [], [".ts"], ["typescript"], true⟩],
     some "b", true⟩ "foo.ts" "b"
    ⟨"b", "b-lsp", [], [".ts"], ["typescript"], true⟩
    rfl (by decide) (by decide)

/-! ### Claim C8: languageId and the server configuration -/

/-- C8 counterexample: `getLanguageId` is not independent of the server
configuration — it resolves a server first.  With the `.py` server
disabled, `foo.py` maps to `"plaintext"`; with the same server enabled
it maps to `"python"`.  Toggling an `enabled` flag therefore changes
the result, contradicting the claimed independence. -/
theorem languageId_depends_on_enabled_servers :
    getLanguageId
      ⟨[⟨"pyright", "pyright-langserver", ["--stdio"], [".py"], ["python"], false⟩],
       none, true⟩ "foo.py" = "plaintext" ∧
    getLanguageId
      ⟨[⟨"pyright", "pyright-langserver", ["--stdio"], [".py"], ["python"], true⟩],
       none, true⟩ "foo.py" = "python" ∧
    getLanguageId
      ⟨[⟨"pyright", "pyright-langserver", ["--stdio"], [".py"], ["python"], false⟩],
       none, true⟩ "foo.py"
      ≠ getLanguageId
      ⟨[⟨"pyright", "pyright-langserver", ["--stdio"], [".py"], ["python"], true⟩],
       none, true⟩ "foo.py" := by
  decide

/-- C8 (amended): `getLanguageId` consults the resolver first: it
returns the generic `"plaintext"` whenever no enabled server handles
the file's extension, and otherwise maps the extension through a fixed
table — so it depends on the configuration only through whether a
server resolves, and (for `.h`/`.hpp` only) through the resolved
server's `languageIds`. -/
theorem languageId_fixed_table_given_resolution :
    (∀ cfg fp, getServerForFile cfg fp = none →
      getLanguageId cfg fp = "plaintext") ∧
    (∀ cfg1 cfg2 fp s1 s2, getServerForFile cfg1 fp = some s1 →
      getServerForFile cfg2 fp = some s2 →
      s1.languageIds.contains "cpp" = s2.languageIds.contains "cpp" →
      getLanguageId cfg1 fp = getLanguageId cfg2 fp) := by
  constructor
  · intro cfg fp h
    unfold getLanguageId
    rw [h]
  · intro cfg1 cfg2 fp s1 s2 h1 h2 hcpp
    unfold getLanguageId
    rw [h1, h2]
    simp only [hcpp]

/-- Witness for `languageId_fixed_table_given_resolution`: two
different configurations resolving different `.py` descriptors with the
same `languageIds` agree on the language id of `x.py`. -/
theorem languageId_fixed_table_given_resolution_witness :
    getLanguageId
      ⟨[⟨"pyright", "pyright-langserver", ["--stdio"], [".py"], ["python"], true⟩],
       none, true⟩ "x.py"
      = getLanguageId
      ⟨[⟨"pylsp", "pylsp", [], [".py", ".pyi"], ["python"], true⟩],
       none, true⟩ "x.py" :=
  languageId_fixed_table_given_resolution.2
    ⟨[⟨"pyright", "pyright-langserver", ["--stdio"], [".py"], ["python"], true⟩],
     none, true⟩
    ⟨[⟨"pylsp", "pylsp", [], [".py", ".pyi"], ["python"], true⟩], none, true⟩
    "x.py"
    ⟨"pyright", "pyright-langserver", ["--stdio"], [".py"], ["python"], true⟩
    ⟨"pylsp", "pylsp", [], [".py", ".pyi"], ["python"], true⟩
    (by decide) (by decide) (by decide)

/-! ### Claim C9: initialization failures stay inside the session -/

/-- C9: no failure during `LSPManager.initialize` escapes to the
editor.  The body's only rejection point (`client.start`) is caught by
the `try`/`catch`, which turns it into the caught state with
`isEnabled = false`; the no-resolvable-server case is an ordinary early
return with `isEnabled = false`; and in every failure case the session
is observable only as `isReady() == false`. -/
theorem initialize_failure_only_not_ready (m : MState) (fp : Option String)
    (ok : Bool) :
    (match initializeTry m fp ok with
      | .ok _ => True
      | .error e => initializeM m fp ok = { e.2 with isEnabled := false } ∧
          isReadyM (initializeM m fp ok) = false) ∧
    (∀ f, fp = some f → getServerForFile m.config f = none →
      initializeM m fp ok = { m with isEnabled := false } ∧
      isReadyM (initializeM m fp ok) = false) ∧
    (ok = false → isReadyM (initializeM m fp ok) = false) := by
  rcases fp with _ | f
  · cases ok
    · exact ⟨⟨rfl, rfl⟩, fun f hf => by simp at hf, fun _ => rfl⟩
    · exact ⟨trivial, fun f hf => by simp at hf, fun h => by simp at h⟩
  · rcases hr : getServerForFile m.config f with _ | sc
    · refine ⟨?_, ?_, fun _ => ?_⟩
      · simp [initializeTry, hr]
      · intro g hg hrg
        injection hg with hfg
        subst hfg
        constructor
        · simp [initializeM, hr]
        · simp [initializeM, hr, isReadyM]
      · simp [initializeM, hr, isReadyM]
    · cases ok
      · refine ⟨?_, ?_, fun _ => ?_⟩
        · simp only [initializeTry, hr]
          constructor
          · simp [initializeM, hr]
          · simp [initializeM, hr, isReadyM]
        · intro g hg hrg
          injection hg with hfg
          subst hfg
          rw [hr] at hrg
          exact absurd hrg (by simp)
        · simp [initializeM, hr, isReadyM]
      · refine ⟨?_, ?_, fun h => by simp at h⟩
        · simp [initializeTry, hr]
        · intro g hg hrg
          injection hg with hfg
          subst hfg
          rw [hr] at hrg
          exact absurd hrg (by simp)

/-- Witness for `initialize_failure_only_not_ready`: a failed start and
an unresolvable extension both leave a fresh manager not ready. -/
theorem initialize_failure_only_not_ready_witness :
    isReadyM (initializeM (initialManager getBuiltInDefaults)
      (some "/a.ts") false) = false ∧
    initializeM (initialManager getBuiltInDefaults) (some "/a.xyz") true
      = { initialManager getBuiltInDefaults with isEnabled := false } :=
  ⟨(initialize_failure_only_not_ready (initialManager getBuiltInDefaults)
      (some "/a.ts") false).2.2 rfl,
   ((initialize_failure_only_not_ready (initialManager getBuiltInDefaults)
      (some "/a.xyz") true).2.1 "/a.xyz" rfl (by decide)).1⟩

/-! ### Claim C10: getCompletions / getDefinition never reject -/

/-- C10: `getCompletions` and `getDefinition` always settle with a
list: when the session is not ready, no document is open, or the
underlying request rejects (including server-reported errors), the
result is `.ok []` — the promise handed to the editor never rejects. -/
theorem lsp_requests_never_reject :
    (∀ m pos o, ∃ l, getCompletions m pos o = .ok l) ∧
    (∀ m pos o, isReadyM m = false ∨ m.currentUri = none ∨
      (∃ e, o = .error e) → getCompletions m pos o = .ok []) ∧
    (∀ m pos o, ∃ l, getDefinition m pos o = .ok l) ∧
    (∀ m pos o, isReadyM m = false ∨ m.currentUri = none ∨
      (∃ e, o = .error e) → getDefinition m pos o = .ok []) := by
  refine ⟨?_, ?_, ?_, ?_⟩
  · intro m pos o
    unfold getCompletions
    cases hr : isReadyM m
    · exact ⟨[], rfl⟩
    · rcases hu : m.currentUri with _ | u
      · exact ⟨[], rfl⟩
      · rcases o with e | resp
        · exact ⟨[], rfl⟩
        · exact ⟨convertCompletions resp pos, rfl⟩
  · intro m pos o h
    unfold getCompletions
    rcases h with h | h | ⟨e, he⟩
    · simp [h]
    · simp [h]
    · subst he
      cases hr : isReadyM m
      · simp [hr]
      · rcases hu : m.currentUri with _ | u <;> simp [hr, hu]
  · intro m pos o
    unfold getDefinition
    cases hr : isReadyM m
    · exact ⟨[], rfl⟩
    · rcases hu : m.currentUri with _ | u
      · exact ⟨[], rfl⟩
      · rcases o with e | resp
        · exact ⟨[], rfl⟩
        · exact ⟨convertDefinitionResponse resp, rfl⟩
  · intro m pos o h
    unfold getDefinition
    rcases h with h | h | ⟨e, he⟩
    · simp [h]
    · simp [h]
    · subst he
      cases hr : isReadyM m
      · simp [hr]
      · rcases hu : m.currentUri with _ | u <;> simp [hr, hu]

/-- Witness for `lsp_requests_never_reject`: a not-ready fresh manager
and a ready session whose request rejects both yield `.ok []`. -/
theorem lsp_requests_never_reject_witness :
    getCompletions (initialManager getBuiltInDefaults) ⟨0, 0⟩
      (.ok ⟨[], false⟩) = .ok [] ∧
    getDefinition (openDocument (initializeM (initialManager getBuiltInDefaults)
        (some "/a.ts") true) "/a.ts" "x").1 ⟨0, 0⟩
      (.error "request failed") = .ok [] :=
  ⟨lsp_requests_never_reject.2.1 (initialManager getBuiltInDefaults) ⟨0, 0⟩
      (.ok ⟨[], false⟩) (Or.inl (by decide)),
   lsp_requests_never_reject.2.2.2
      (openDocument (initializeM (initialManager getBuiltInDefaults)
        (some "/a.ts") true) "/a.ts" "x").1 ⟨0, 0⟩
      (.error "request failed")
      (Or.inr (Or.inr ⟨"request failed", rfl⟩))⟩

/-! ### Claim C4: id allocation and pending-request resolution -/

theorem allocIds_append (a b : List CEvent) :
    allocIds (a ++ b) = allocIds a ++ allocIds b := by
  unfold allocIds
  exact List.filterMap_append a b _

theorem invokeCount_append (a b : List CEvent) (i : Nat) :
    invokeCount (a ++ b) i = invokeCount a i + invokeCount b i := by
  unfold invokeCount
  rw [List.filter_append, List.length_append]

/-- One step preserves the pending-table invariant and produces at most
one allocation (of the current `nextId`) and at most one handler
invocation (of an id that was pending and is pending no longer). -/
theorem stepClient_facts (s : CState) (op : COp) (hinv : ClientInv s) :
    ClientInv (stepClient s op).1 ∧
    s.nextId ≤ (stepClient s op).1.nextId ∧
    ((allocIds (stepClient s op).2 = [] ∧ (stepClient s op).1.nextId = s.nextId) ∨
     (allocIds (stepClient s op).2 = [s.nextId] ∧
      (stepClient s op).1.nextId = s.nextId + 1)) ∧
    (∀ i, invokeCount (stepClient s op).2 i ≤ 1) ∧
    (∀ i, invokeCount (stepClient s op).2 i = 1 →
      i ∈ s.messageHandlers ∧ i ∉ (stepClient s op).1.messageHandlers) ∧
    (∀ i, i ∉ s.messageHandlers → i < s.nextId →
      invokeCount (stepClient s op).2 i = 0 ∧
      i ∉ (stepClient s op).1.messageHandlers) := by
  obtain ⟨hnd, hbound⟩ := hinv
  cases op with
  | startInit =>
    refine ⟨⟨?_, ?_⟩, by simp [stepClient, allocId], ?_, ?_, ?_, ?_⟩
    · simp only [stepClient, allocId]
      exact List.Nodup.cons (fun h => absurd (hbound _ h) (by omega)) hnd
    · simp only [stepClient, allocId]
      intro i hi
      rcases List.mem_cons.mp hi with h | h
      · omega
      · have := hbound i h; omega
    · right
      simp [stepClient, allocId, allocIds]
    · intro i
      simp [stepClient, allocId, invokeCount]
    · intro i hi
      simp [stepClient, allocId, invokeCount] at hi
    · intro i hmem hlt
      refine ⟨by simp [stepClient, allocId, invokeCount], ?_⟩
      simp only [stepClient, allocId]
      intro hc
      rcases List.mem_cons.mp hc with h | h
      · omega
      · exact hmem h
  | reqCompletion =>
    cases hini : s.isInitialized
    · refine ⟨⟨?_, ?_⟩, ?_, ?_, ?_, ?_, ?_⟩ <;>
        simp [stepClient, hini, allocIds, invokeCount, hnd]
      · exact hbound
      · intro i hmem hlt
        exact hmem
    · refine ⟨⟨?_, ?_⟩, by simp [stepClient, hini, allocId], ?_, ?_, ?_, ?_⟩
      · simp only [stepClient, hini, allocId, if_true]
        exact List.Nodup.cons (fun h => absurd (hbound _ h) (by omega)) hnd
      · simp only [stepClient, hini, allocId, if_true]
        intro i hi
        rcases List.mem_cons.mp hi with h | h
        · omega
        · have := hbound i h; omega
      · right
        simp [stepClient, hini, allocId, allocIds]
      · intro i
        simp [stepClient, hini, allocId, invokeCount]
      · intro i hi
        simp [stepClient, hini, allocId, invokeCount] at hi
      · intro i hmem hlt
        refine ⟨by simp [stepClient, hini, allocId, invokeCount], ?_⟩
        simp only [stepClient, hini, allocId, if_true]
        intro hc
        rcases List.mem_cons.mp hc with h | h
        · omega
        · exact hmem h
  | reqDefinition =>
    cases hini : s.isInitialized
    · refine ⟨⟨?_, ?_⟩, ?_, ?_, ?_, ?_, ?_⟩ <;>
        simp [stepClient, hini, allocIds, invokeCount, hnd]
      · exact hbound
      · intro i hmem hlt
        exact hmem
    · refine ⟨⟨?_, ?_⟩, by simp [stepClient, hini, allocId], ?_, ?_, ?_, ?_⟩
      · simp only [stepClient, hini, allocId, if_true]
        exact List.Nodup.cons (fun h => absurd (hbound _ h) (by omega)) hnd
      · simp only [stepClient, hini, allocId, if_true]
        intro i hi
        rcases List.mem_cons.mp hi with h | h
        · omega
        · have := hbound i h; omega
      · right
        simp [stepClient, hini, allocId, allocIds]
      · intro i
        simp [stepClient, hini, allocId, invokeCount]
      · intro i hi
        simp [stepClient, hini, allocId, invokeCount] at hi
      · intro i hmem hlt
        refine ⟨by simp [stepClient, hini, allocId, invokeCount], ?_⟩
        simp only [stepClient, hini, allocId, if_true]
        intro hc
        rcases List.mem_cons.mp hc with h | h
        · omega
        · exact hmem h
  | stopClient =>
    refine ⟨⟨by simp [stepClient], by simp [stepClient]⟩,
      by simp [stepClient], ?_, ?_, ?_, ?_⟩ <;>
      simp [stepClient, allocIds, invokeCount]
  | inbound msg =>
    rcases hid : msg.id with _ | i0
    · -- no id: method dispatch, no state change, no invoke
      have hstep : stepClient s (.inbound msg) = dispatchMethod s msg := by
        simp [stepClient, handleMessage, hid]
      have hd : (dispatchMethod s msg).1 = s ∧
          allocIds (dispatchMethod s msg).2 = [] ∧
          (∀ i, invokeCount (dispatchMethod s msg).2 i = 0) := by
        unfold dispatchMethod
        rcases msg.method with _ | meth
        · simp [allocIds, invokeCount]
        · by_cases hh : notificationHandled meth <;>
            simp [hh, allocIds, invokeCount]
      rw [hstep]
      refine ⟨(by rw [hd.1]; exact ⟨hnd, hbound⟩), by rw [hd.1], Or.inl ⟨hd.2.1, by rw [hd.1]⟩,
        fun i => by rw [hd.2.2 i]; omega,
        fun i hi => absurd hi (by rw [hd.2.2 i]; omega),
        fun i hmem hlt => ⟨hd.2.2 i, by rw [hd.1]; exact hmem⟩⟩
    · by_cases hmem0 : i0 ∈ s.messageHandlers
      · have hcont : s.messageHandlers.contains i0 = true :=
          List.elem_iff.mpr hmem0
        have hstep2 : (stepClient s (.inbound msg)).2 = [.invoke i0 msg.isErr] := by
          simp [stepClient, handleMessage, hid, hmem0]
        have hstep1mh : (stepClient s (.inbound msg)).1.messageHandlers
            = s.messageHandlers.erase i0 := by
          simp only [stepClient, handleMessage, hid]
          simp only [hcont, if_true]
          by_cases hflag : (s.initId == some i0 && !msg.isErr) = true <;>
            simp [hflag]
        have hstep1id : (stepClient s (.inbound msg)).1.nextId = s.nextId := by
          simp only [stepClient, handleMessage, hid]
          simp only [hcont, if_true]
          by_cases hflag : (s.initId == some i0 && !msg.isErr) = true <;>
            simp [hflag]
        refine ⟨⟨?_, ?_⟩, by rw [hstep1id], Or.inl ⟨by rw [hstep2]; rfl, hstep1id⟩,
          ?_, ?_, ?_⟩
        · rw [hstep1mh]
          exact List.Nodup.erase i0 hnd
        · rw [hstep1mh, hstep1id]
          intro i hi
          exact hbound i (List.mem_of_mem_erase hi)
        · intro i
          rw [hstep2]
          by_cases hii : i0 = i <;> simp [invokeCount, hii]
        · intro i hi
          rw [hstep2] at hi
          have hii : i = i0 := by
            by_cases h : i0 = i
            · omega
            · simp [invokeCount, h] at hi
          subst hii
          refine ⟨hmem0, ?_⟩
          rw [hstep1mh]
          intro hc
          exact absurd ((List.Nodup.mem_erase_iff hnd).mp hc).1 (by simp)
        · intro i hmem hlt
          have hii : i ≠ i0 := fun h => hmem (h ▸ hmem0)
          have hii2 : i0 ≠ i := fun h => hii h.symm
          constructor
          · rw [hstep2]
            simp [invokeCount, hii2]
          · rw [hstep1mh]
            intro hc
            exact hmem (List.mem_of_mem_erase hc)
      · have hcont : s.messageHandlers.contains i0 = false := by
          rcases hcc : s.messageHandlers.contains i0 with _ | _
          · rfl
          · exact absurd (List.elem_iff.mp hcc) hmem0
        have hstep : stepClient s (.inbound msg) = dispatchMethod s msg := by
          simp [stepClient, handleMessage, hid, hmem0]
        have hd : (dispatchMethod s msg).1 = s ∧
            allocIds (dispatchMethod s msg).2 = [] ∧
            (∀ i, invokeCount (dispatchMethod s msg).2 i = 0) := by
          unfold dispatchMethod
          rcases msg.method with _ | meth
          · simp [allocIds, invokeCount]
          · by_cases hh : notificationHandled meth <;>
              simp [hh, allocIds, invokeCount]
        rw [hstep]
        refine ⟨(by rw [hd.1]; exact ⟨hnd, hbound⟩), by rw [hd.1], Or.inl ⟨hd.2.1, by rw [hd.1]⟩,
          fun i => by rw [hd.2.2 i]; omega,
          fun i hi => absurd hi (by rw [hd.2.2 i]; omega),
          fun i hmem hlt => ⟨hd.2.2 i, by rw [hd.1]; exact hmem⟩⟩

/-- Trace-level facts: along any operation sequence the invariant
holds, `nextId` is monotone, the allocated ids are pairwise strictly
increasing in order of allocation, every allocation is fresh, and no
pending entry's handler is invoked more than once. -/
theorem runClient_facts : ∀ (ops : List COp) (s : CState), ClientInv s →
    ClientInv (runClient s ops).1 ∧
    s.nextId ≤ (runClient s ops).1.nextId ∧
    (allocIds (runClient s ops).2).Pairwise (· < ·) ∧
    (∀ a ∈ allocIds (runClient s ops).2,
      s.nextId ≤ a ∧ a < (runClient s ops).1.nextId) ∧
    (∀ i, invokeCount (runClient s ops).2 i ≤ 1) ∧
    (∀ i, i ∉ s.messageHandlers → i < s.nextId →
      invokeCount (runClient s ops).2 i = 0 ∧
      i ∉ (runClient s ops).1.messageHandlers) := by
  intro ops
  induction ops with
  | nil =>
    intro s hinv
    refine ⟨hinv, le_rfl, ?_, ?_, ?_, ?_⟩ <;>
      simp [runClient, allocIds, invokeCount]
    intro i hmem _
    exact hmem
  | cons op ops ih =>
    intro s hinv
    obtain ⟨sinv, smono, salloc, sinv1, sinv5, sinv6⟩ :=
      stepClient_facts s op hinv
    obtain ⟨rinv, rmono, ralloc, rfresh, rcount, rzero⟩ :=
      ih (stepClient s op).1 sinv
    have hrun : runClient s (op :: ops)
        = ((runClient (stepClient s op).1 ops).1,
           (stepClient s op).2 ++ (runClient (stepClient s op).1 ops).2) := rfl
    rw [hrun]
    refine ⟨rinv, le_trans smono rmono, ?_, ?_, ?_, ?_⟩
    · rw [allocIds_append, List.pairwise_append]
      refine ⟨?_, ralloc, ?_⟩
      · rcases salloc with ⟨h, _⟩ | ⟨h, _⟩ <;> simp [h]
      · intro a ha b hb
        rcases salloc with ⟨h, _⟩ | ⟨h, hid⟩
        · rw [h] at ha; simp at ha
        · rw [h] at ha
          simp at ha
          subst ha
          have := (rfresh b hb).1
          omega
    · intro a ha
      rw [allocIds_append] at ha
      rcases List.mem_append.mp ha with h | h
      · rcases salloc with ⟨h0, _⟩ | ⟨h0, hid⟩
        · rw [h0] at h; simp at h
        · rw [h0] at h
          simp at h
          subst h
          refine ⟨le_rfl, ?_⟩
          show s.nextId < (runClient (stepClient s op).1 ops).1.nextId
          omega
      · have := rfresh a h
        exact ⟨le_trans smono this.1, this.2⟩
    · intro i
      rw [invokeCount_append]
      rcases hcnt : invokeCount (stepClient s op).2 i with _ | n
      · have := rcount i
        omega
      · have h1 := sinv1 i
        rw [hcnt] at h1
        have hn : n = 0 := by omega
        subst hn
        obtain ⟨hin, hout⟩ := sinv5 i (by rw [hcnt])
        have hlt : i < (stepClient s op).1.nextId :=
          lt_of_lt_of_le (hinv.2 i hin) smono
        have := (rzero i hout hlt).1
        omega
    · intro i hmem hlt
      obtain ⟨hc0, hout⟩ := sinv6 i hmem hlt
      have hlt2 : i < (stepClient s op).1.nextId := lt_of_lt_of_le hlt smono
      obtain ⟨hc1, hfin⟩ := rzero i hout hlt2
      rw [invokeCount_append, hc0, hc1]
      exact ⟨rfl, hfin⟩

/-- C4: within one session (one `LSPClient`), the ids allocated for
outgoing requests are strictly increasing in allocation order (hence
unique and never reused), each pending handler is invoked at most once
over any operation sequence, and a response matching a pending id
invokes its handler exactly once and removes the entry. -/
theorem request_ids_increasing_resolved_once :
    (∀ ops, (allocIds (runClient initialClient ops).2).Pairwise (· < ·) ∧
      ∀ i, invokeCount (runClient initialClient ops).2 i ≤ 1) ∧
    (∀ s msg i, ClientInv s → msg.id = some i → i ∈ s.messageHandlers →
      (stepClient s (.inbound msg)).2 = [.invoke i msg.isErr] ∧
      i ∉ (stepClient s (.inbound msg)).1.messageHandlers) := by
  constructor
  · intro ops
    have h := runClient_facts ops initialClient ⟨by simp [initialClient],
      by simp [initialClient]⟩
    exact ⟨h.2.2.1, h.2.2.2.2.1⟩
  · intro s msg i hinv hid hmem
    constructor
    · simp [stepClient, handleMessage, hid, hmem]
    · have hcont : s.messageHandlers.contains i = true := List.elem_iff.mpr hmem
      have hmh : (stepClient s (.inbound msg)).1.messageHandlers
          = s.messageHandlers.erase i := by
        simp only [stepClient, handleMessage, hid]
        simp only [hcont, if_true]
        by_cases hflag : (s.initId == some i && !msg.isErr) = true <;>
          simp [hflag]
      rw [hmh]
      intro hc
      exact absurd ((List.Nodup.mem_erase_iff hinv.1).mp hc).1 (by simp)

/-- Witness for `request_ids_increasing_resolved_once`: a concrete
session trace (handshake, response, two requests, one response), and a
concrete pending state receiving its matching response. -/
theorem request_ids_increasing_resolved_once_witness :
    ((allocIds (runClient initialClient
        [COp.startInit, COp.inbound ⟨some 1, none, false⟩, COp.reqCompletion,
         COp.reqDefinition, COp.inbound ⟨some 3, none, false⟩]).2).Pairwise (· < ·) ∧
      ∀ i, invokeCount (runClient initialClient
        [COp.startInit, COp.inbound ⟨some 1, none, false⟩, COp.reqCompletion,
         COp.reqDefinition, COp.inbound ⟨some 3, none, false⟩]).2 i ≤ 1) ∧
    ((stepClient ⟨4, [2, 3], true, some 1⟩
        (.inbound ⟨some 2, none, false⟩)).2 = [.invoke 2 false] ∧
      2 ∉ (stepClient ⟨4, [2, 3], true, some 1⟩
        (.inbound ⟨some 2, none, false⟩)).1.messageHandlers) :=
  ⟨request_ids_increasing_resolved_once.1
      [COp.startInit, COp.inbound ⟨some 1, none, false⟩, COp.reqCompletion,
       COp.reqDefinition, COp.inbound ⟨some 3, none, false⟩],
   request_ids_increasing_resolved_once.2 ⟨4, [2, 3], true, some 1⟩
      ⟨some 2, none, false⟩ 2 (by decide) rfl (by decide)⟩

end Xlr8
